import Mathlib

/-!
Verification development for the content-chunking and idempotent-storage
pipeline of a retrieval-augmented-generation backend.

Strings are modelled as `List Char`; Python floats appearing in scores are
modelled as exact rationals (`ℚ`); the external Qdrant client is modelled as
an explicit function parameter that may fail (`Except Unit _`); the external
SHA-256 digest is modelled as a function parameter `pid`.  The chunker's
`while` loop is modelled with an explicit fuel parameter: `none` means the
loop did not finish within the given fuel (for every fuel), i.e. it diverges.
-/

namespace Spec2Proof

/-! ### Basic string helpers (Python `str` operations over `List Char`) -/

/-- Whitespace characters stripped by Python `str.strip()`. -/
def isWS (c : Char) : Bool :=
  c = ' ' || c = '\t' || c = '\n' || c = '\r' || c = '\x0b' || c = '\x0c'

/-- Drop the leading whitespace run (Python `str.lstrip()`). -/
def dropWS : List Char → List Char
  | [] => []
  | c :: rest => if isWS c then dropWS rest else c :: rest

/-- Python `str.strip()`: drop whitespace from both ends. -/
def pstrip (l : List Char) : List Char :=
  (dropWS (dropWS l).reverse).reverse

/-- Python slicing `s[a:b]` for natural indices `a ≤ b` (clamped at the ends). -/
def slice (l : List Char) (a b : Nat) : List Char :=
  (l.take b).drop a

/-- Whether `pat` is a prefix of `l` (Boolean, by direct recursion). -/
def isPrefList : List Char → List Char → Bool
  | [], _ => true
  | _ :: _, [] => false
  | a :: as, b :: bs => a = b && isPrefList as bs

/-- Whether `pat` occurs in `l` starting at index `i`. -/
def matchesAt (l pat : List Char) (i : Nat) : Bool :=
  isPrefList pat (l.drop i)

/-- Largest `i ≤ n` with `p i = true`, else `-1` (scanning downward). -/
def greatestBelow (p : Nat → Bool) : Nat → Int
  | 0 => if p 0 then 0 else -1
  | n + 1 => if p (n + 1) then ((n + 1 : Nat) : Int) else greatestBelow p n

/-- Python `str.rfind(pat)` for a nonempty pattern: the largest index at which
`pat` occurs in `l`, or `-1` if it does not occur. -/
def pyRfind (l pat : List Char) : Int :=
  greatestBelow (matchesAt l pat) l.length

/-! ### Chunker (`backend/utils/chunker.py`) -/

/-- The last sentence boundary inside a window, mirroring
`max(chunk.rfind('. '), chunk.rfind('! '), chunk.rfind('? '), chunk.rfind('\n'),
chunk.rfind('.\n'), chunk.rfind('!'), chunk.rfind('?'))` in `chunk_content`. -/
def sentenceEnd (w : List Char) : Int :=
  max (pyRfind w ['.', ' '])
    (max (pyRfind w ['!', ' '])
      (max (pyRfind w ['?', ' '])
        (max (pyRfind w ['\n'])
          (max (pyRfind w ['.', '\n'])
            (max (pyRfind w ['!']) (pyRfind w ['?']))))))

/-- The seven sentence-terminal markers, in the source's scan order. -/
def markers : List (List Char) :=
  [['.', ' '], ['!', ' '], ['?', ' '], ['\n'], ['.', '\n'], ['!'], ['?']]

/-- Modelled from the spec: the last occurrence, over all sentence-terminal
markers, of any marker in the window — "implementers must replicate
'last match wins' across all markers".  Used to compare the source's
`sentenceEnd` against the spec's wording (claim C7). -/
def lastBoundary (w : List Char) : Int :=
  greatestBelow (fun i => markers.any (fun m => matchesAt w m i)) w.length

/-- End offset chosen for the window starting at `start`
(`chunker.py` lines 34–60): final chunk runs to the text end; otherwise snap
to the last sentence boundary when it lies past the midpoint of the window,
else take the full `chunk_size`-wide window (clipped to the text length). -/
def windowEnd (cs : Nat) (content : List Char) (start : Nat) : Nat :=
  if content.length ≤ start + cs then content.length
  else
    let chunk := slice content start (start + cs)
    let se := sentenceEnd chunk
    if ((chunk.length / 2 : Nat) : Int) < se then start + se.toNat + 1
    else min (start + cs) content.length

/-- Cursor update after emitting a chunk ending at `e`
(`chunker.py` lines 115–122): `start = end - overlap`, reset to `end` when the
result falls at/after the text length, when the overlap is not positive, or
when it falls at/before 0 ("prevent infinite loop"). -/
def nextStart (ov len e : Nat) : Nat :=
  let s1 : Int := (e : Int) - (ov : Int)
  let s2 : Int := if (len : Int) ≤ s1 ∨ ov = 0 then (e : Int) else s1
  let s3 : Int := if s2 ≤ 0 then (e : Int) else s2
  s3.toNat

/-- `Chunker._split_large_chunk` (`chunker.py` lines 127–160), with explicit
fuel for the `while` loop (the caller passes enough fuel for the
`max_size = 20000` call site). -/
def splitLargeChunk (maxSize : Nat) (c : List Char) : Nat → Nat → List (List Char)
  | 0, _ => []
  | fuel + 1, start =>
    if start < c.length then
      if c.length ≤ start + maxSize then [c.drop start]
      else
        if (((slice c start (start + maxSize)).length / 2 : Nat) : Int) <
            sentenceEnd (slice c start (start + maxSize)) then
          slice c start (start + (sentenceEnd (slice c start (start + maxSize))).toNat + 1) ::
            splitLargeChunk maxSize c fuel
              (start + (sentenceEnd (slice c start (start + maxSize))).toNat + 1)
        else
          slice c start (start + maxSize) ::
            splitLargeChunk maxSize c fuel (start + maxSize)
    else []

/-- One produced chunk record: its (stripped or sub-split) text, the window
offsets recorded in its metadata, and the `is_sub_chunk` flag. -/
structure ChunkRec where
  text : List Char
  startIdx : Nat
  endIdx : Nat
  isSub : Bool
deriving DecidableEq

/-- The chunk records emitted for one window `[start, e)` whose stripped
text is `txt` (`chunker.py` lines 62–113): nothing when the stripped text is
empty; the sub-chunks of `_split_large_chunk` (tagged `is_sub_chunk`, all
carrying the window's offsets) when it exceeds 20000 characters; otherwise
the single stripped chunk. -/
def emitChunks (start e : Nat) (txt : List Char) : List ChunkRec :=
  if txt = [] then []
  else if 20000 < txt.length then
    (splitLargeChunk 20000 txt (txt.length + 1) 0).map (fun t => ⟨t, start, e, true⟩)
  else [⟨txt, start, e, false⟩]

/-- The sliding-window `while` loop of `Chunker.chunk_content`
(`chunker.py` lines 33–122), with explicit fuel.  Returns the emitted chunk
records together with `true` iff the loop reached its exit condition within
the given fuel. -/
def chunkLoop (cs ov : Nat) (content : List Char) : Nat → Nat → List ChunkRec × Bool
  | 0, start => ([], decide (content.length ≤ start))
  | fuel + 1, start =>
    if start < content.length then
      let e := windowEnd cs content start
      let r := chunkLoop cs ov content fuel (nextStart ov content.length e)
      (emitChunks start e (pstrip (slice content start e)) ++ r.1, r.2)
    else ([], true)

/-- Input truncation to the 30000-character safety ceiling
(`chunker.py` lines 22–26). -/
def truncateContent (content : List Char) : List Char :=
  if 30000 < content.length then content.take 30000 else content

/-- All chunk records emitted by `chunk_content` within `fuel` loop
iterations (whether or not the loop has finished). -/
def chunkEmitted (cs ov : Nat) (content : List Char) (fuel : Nat) : List ChunkRec :=
  (chunkLoop cs ov (truncateContent content) fuel 0).1

/-- `Chunker.chunk_content`: `some chunks` if the `while` loop terminates
within `fuel` iterations, `none` otherwise.  An empty document yields an
empty chunk list without entering the loop. -/
def chunkContentFuel (cs ov : Nat) (content : List Char) (fuel : Nat) :
    Option (List ChunkRec) :=
  if content = [] then some []
  else
    let r := chunkLoop cs ov (truncateContent content) fuel 0
    if r.2 then some r.1 else none

/-! ### Storage (`backend/utils/storage.py`)

The Qdrant store is modelled as a list of points; the external client calls
(`scroll`, `upsert`) are modelled explicitly.  The external SHA-256 digest
truncated to 16 hex characters is modelled as a function parameter `pid`. -/

/-- An embedded chunk handed to the storage layer: its `id`, the payload
fields relevant here (`url`), its `metadata.content_hash`, and the rest of
the payload collapsed into `body`. -/
structure EmbChunk where
  chunkId : List Char
  url : List Char
  contentHash : List Char
  body : List Char
deriving DecidableEq

/-- A point persisted in the vector store: its point identifier and the
payload fields used by the dedup/change-detection logic. -/
structure SPoint where
  pid : List Char
  url : List Char
  contentHash : List Char
  chunkId : List Char
  body : List Char
deriving DecidableEq

/-- The string `f"{content_hash}_{chunk_id}"` hashed to form the point id
(`storage.py` line 161). -/
def pidString (c : EmbChunk) : List Char :=
  c.contentHash ++ '_' :: c.chunkId

/-- The Qdrant point built for a chunk (`storage.py` lines 157–180):
`id = sha256(f"{content_hash}_{chunk_id}").hexdigest()[:16]` with the
payload carrying url, content and metadata (content-hash and chunk id). -/
def mkPoint (pid : List Char → List Char) (c : EmbChunk) : SPoint :=
  ⟨pid (pidString c), c.url, c.contentHash, c.chunkId, c.body⟩

/-- Qdrant `upsert` semantics for a single point: replace every point with
the same id, or append the point if its id is new. -/
def upsertPoint (s : List SPoint) (p : SPoint) : List SPoint :=
  if s.any (fun q => q.pid = p.pid) then
    s.map (fun q => if q.pid = p.pid then p else q)
  else s ++ [p]

/-- `StorageManager.store_embeddings` (`storage.py` lines 149–198): build a
point per chunk and upsert the batch (later points with the same id win). -/
def storeEmbeddings (pid : List Char → List Char) (s : List SPoint)
    (batch : List EmbChunk) : List SPoint :=
  batch.foldl (fun st c => upsertPoint st (mkPoint pid c)) s

/-- The successful result of
`client.scroll(filter metadata.content_hash == h, limit=1)`
(`storage.py` lines 83–94). -/
def scrollByHash (s : List SPoint) (h : List Char) : List SPoint :=
  (s.filter (fun q => q.contentHash = h)).take 1

/-- The successful result of `client.scroll(filter url == u, limit=100)`
(`storage.py` lines 111–122); the limit of 100 is the source's
"Assuming a URL won't have more than 100 chunks". -/
def scrollByUrl (s : List SPoint) (u : List Char) : List SPoint :=
  (s.filter (fun q => q.url = u)).take 100

/-- A hash-scroll client whose lookups always succeed. -/
def goodHashClient : List SPoint → List Char → Except Unit (List SPoint) :=
  fun s h => Except.ok (scrollByHash s h)

/-- A url-scroll client whose lookups always succeed. -/
def goodUrlClient : List SPoint → List Char → Except Unit (List SPoint) :=
  fun s u => Except.ok (scrollByUrl s u)

/-- A client whose lookups always raise. -/
def errClient : List SPoint → List Char → Except Unit (List SPoint) :=
  fun _ _ => Except.error ()

/-- `StorageManager.check_duplicate` (`storage.py` lines 79–100): scroll for
a point with the candidate content-hash; report a duplicate iff the lookup
succeeds with at least one point, and report `False` when the lookup raises
("If we can't check, assume it's not duplicate to be safe"). -/
def checkDuplicate (client : List SPoint → List Char → Except Unit (List SPoint))
    (s : List SPoint) (h : List Char) : Bool :=
  match client s h with
  | Except.ok pts => decide (pts ≠ [])
  | Except.error _ => false

/-- `StorageManager.idempotent_store_embeddings` (`storage.py` lines
200–227): keep only the candidates whose duplicate check is negative, then
store them; when nothing survives the filter the store is untouched. -/
def idempotentStoreEmbeddings (pid : List Char → List Char)
    (client : List SPoint → List Char → Except Unit (List SPoint))
    (s : List SPoint) (batch : List EmbChunk) : List SPoint :=
  let filtered := batch.filter (fun c => ! checkDuplicate client s c.contentHash)
  if filtered = [] then s else storeEmbeddings pid s filtered

/-- Whether some stored point carries the given content-hash. -/
def hasHash (s : List SPoint) (h : List Char) : Bool :=
  s.any (fun q => q.contentHash = h)

/-- A store is well-formed when every point's content-hash is a 64-character
digest and its identifier derives from its own content-hash and chunk id —
the shape of every point this pipeline writes. -/
def storeWF (pid : List Char → List Char) (s : List SPoint) : Prop :=
  ∀ q ∈ s, q.contentHash.length = 64 ∧ q.pid = pid (q.contentHash ++ '_' :: q.chunkId)

/-- `StorageManager.check_content_change` (`storage.py` lines 102–147):
scroll for the URL's points; `(true, none)` when the lookup raises (fail
closed) or no points exist (first ingestion); otherwise compare the
candidate hash against the set of truthy content-hashes of the returned
points.  The source's second component is `next(iter(existing_hashes))`, an
unspecified element of a Python set; `head?` models one possible choice and
no theorem below depends on which element is picked (beyond the `none`
cases, which are deterministic). -/
def checkContentChange
    (client : List SPoint → List Char → Except Unit (List SPoint))
    (s : List SPoint) (u h : List Char) : Bool × Option (List Char) :=
  match client s u with
  | Except.error _ => (true, none)
  | Except.ok pts =>
    if pts = [] then (true, none)
    else
      let existing := (pts.map (fun q => q.contentHash)).filter (fun x => x ≠ [])
      (decide (h ∉ existing), existing.head?)

/-! ### Retrieval harness (`backend/utils/retrieval.py`, `backend/retrieve.py`)

Retrieval runs call the external pipeline; a run's outcome is modelled as
`none` (the call raised) or `some results`.  Scores are exact rationals. -/

/-- A retrieved chunk as consumed by the harness: its content and similarity
score (the other payload fields play no role in the scored logic). -/
structure RChunk where
  content : List Char
  score : ℚ
deriving DecidableEq

/-- Python `str.lower()` (ASCII model). -/
def lowerChars (l : List Char) : List Char := l.map Char.toLower

/-- Helper for `pysplit`: accumulate the current word (reversed). -/
def pysplitAux : List Char → List Char → List (List Char)
  | [], acc => if acc = [] then [] else [acc.reverse]
  | c :: rest, acc =>
    if isWS c then
      if acc = [] then pysplitAux rest [] else acc.reverse :: pysplitAux rest []
    else pysplitAux rest (c :: acc)

/-- Python `str.split()` with no argument: the maximal runs of
non-whitespace characters (no empty words). -/
def pysplit (l : List Char) : List (List Char) := pysplitAux l []

/-- One loop iteration of `calculate_accuracy_score`: the words of the set
`common_words = set(expected words) ∩ set(chunk words)` and, when nonempty,
the contribution `min(|common| / |expected words|, chunk.score)` added to
the running total (`ew` is the deduplicated expected word list). -/
def chunkContrib (ew : List (List Char)) (ch : RChunk) : Option ℚ :=
  if ew.filter (fun w => decide (w ∈ pysplit (lowerChars ch.content))) = [] then none
  else some (min
    (((ew.filter (fun w => decide (w ∈ pysplit (lowerChars ch.content)))).length : ℚ) /
      (ew.length : ℚ))
    ch.score)

/-- `calculate_accuracy_score` (`retrieval.py` lines 136–167): 0 with no
chunks; otherwise each chunk sharing at least one word with the expected
text contributes `min(|common words| / |expected words|, chunk.score)`, and
the result is the mean contribution over those chunks (0 when none
contribute).  Word sets are over the lowercased whitespace-split tokens. -/
def calculateAccuracyScore (chunks : List RChunk) (expected : List Char) : ℚ :=
  if chunks = [] then 0
  else if chunks.filterMap (chunkContrib (pysplit (lowerChars expected)).dedup) = []
  then 0
  else (chunks.filterMap (chunkContrib (pysplit (lowerChars expected)).dedup)).sum /
    ((chunks.filterMap (chunkContrib (pysplit (lowerChars expected)).dedup)).length : ℚ)

/-- `run_validation_test` (`retrieval.py` lines 233–272): `none` models the
retrieval call raising (accuracy 0.0, passed False); otherwise accuracy is
the score of the result set (0.0 when empty) and the test passes iff the
accuracy reaches the 0.85 threshold. -/
def runValidationTest (outcome : Option (List RChunk)) (expected : List Char) :
    ℚ × Bool :=
  match outcome with
  | none => (0, false)
  | some results =>
    ((if results = [] then 0 else calculateAccuracyScore results expected),
     decide (85 / 100 ≤
       (if results = [] then 0 else calculateAccuracyScore results expected)))

/-- The top-result identifiers of the successful runs with nonempty result
lists, in run order (`first_result_ids` in
`check_consistency_for_repeated_queries`). -/
def topIds (outs : List (Option (List (List Char)))) : List (List Char) :=
  (outs.filterMap id).filterMap List.head?

/-- The number of occurrences of the most frequent element.  The source
computes `first_result_ids.count(max(set(first_result_ids), key=count))`;
whichever argmax the unspecified set-iteration order picks, its count is the
maximum count, which is what this returns. -/
def modeCount (l : List (List Char)) : Nat :=
  (l.map (fun x => l.count x)).foldl Nat.max 0

/-- The score/varied aggregation of `check_consistency_for_repeated_queries`
(`retrieval.py` lines 347–433).  `outs` lists the run outcomes in order
(`none` = the run raised).  With at most one successful run, or no run with
a nonempty result list, the initial values `(0.0, False)` are reported;
otherwise the score is (count of the most frequent top id) / (number of
successful nonempty runs) and `results_varied` is whether more than one
distinct top id was seen. -/
def consistencyStats (outs : List (Option (List (List Char)))) : ℚ × Bool :=
  let allResults := outs.filterMap id
  if 1 < allResults.length then
    let firstIds := allResults.filterMap List.head?
    if firstIds = [] then (0, false)
    else ((modeCount firstIds : ℚ) / (firstIds.length : ℚ),
          decide (1 < firstIds.dedup.length))
  else (0, false)

/-- `validate_query_text` (`retrieval.py` lines 44–70).  The UTF-8
encodability check cannot fail over `List Char` (Lean characters are valid
scalar values), so it is omitted. -/
def validateQueryText (q : List Char) : Bool × List Char :=
  if q = [] ∨ pstrip q = [] then (false, "Query text cannot be empty".toList)
  else if (pstrip q).length < 3 then
    (false, "Query text must be at least 3 characters long".toList)
  else if 10000 < q.length then
    (false, "Query text is too long (max 10000 characters)".toList)
  else (true, "Query text is valid".toList)

/-- `validate_top_k_value` (`retrieval.py` lines 189–205). -/
def validateTopKValue (k : Int) : Bool × List Char :=
  if k < 1 then (false, "top_k must be a positive integer (at least 1)".toList)
  else if 100 < k then (false, "top_k must not exceed 100".toList)
  else (true, "top_k value is valid".toList)

/-- The input-validation prefix of `retrieve_content` (`retrieve.py` lines
288–299): raise `ValueError` when either validation fails, before any
embedding or search collaborator is called; `ok` means the function
proceeds to the collaborators. -/
def retrieveContentValidate (q : List Char) (k : Int) : Except (List Char) Unit :=
  if ¬ (validateQueryText q).1 then Except.error (validateQueryText q).2
  else if ¬ (validateTopKValue k).1 then Except.error (validateTopKValue k).2
  else Except.ok ()

/-! ### Helper lemmas: stripping -/

theorem dropWS_subset {l : List Char} {x : Char} (hx : x ∈ dropWS l) : x ∈ l := by
  induction l with
  | nil => simpa [dropWS] using hx
  | cons c rest ih =>
    by_cases h : isWS c
    · simp only [dropWS, h, if_pos] at hx
      exact List.mem_cons_of_mem _ (ih hx)
    · simpa [dropWS, h] using hx

theorem dropWS_nil_iff {l : List Char} :
    dropWS l = [] ↔ ∀ x ∈ l, isWS x = true := by
  induction l with
  | nil => simp [dropWS]
  | cons c rest ih =>
    by_cases h : isWS c
    · simp [dropWS, h, ih]
    · constructor
      · intro hc
        rw [dropWS, if_neg h] at hc
        exact absurd hc (List.cons_ne_nil c rest)
      · intro hall
        exact absurd (hall c (List.mem_cons_self c rest)) h

theorem dropWS_all {l : List Char} (h : ∀ x ∈ dropWS l, isWS x = true) :
    ∀ x ∈ l, isWS x = true := by
  induction l with
  | nil => simp
  | cons c rest ih =>
    by_cases hc : isWS c
    · intro x hx
      rcases List.mem_cons.mp hx with rfl | hx'
      · exact hc
      · exact ih (by simpa [dropWS, hc] using h) x hx'
    · simp only [dropWS, hc, if_neg, Bool.false_eq_true, not_false_iff] at h
      exact h

theorem dropWS_head {l : List Char} {a : Char} (h : (dropWS l).head? = some a) :
    isWS a = false := by
  induction l with
  | nil => simp [dropWS] at h
  | cons c rest ih =>
    by_cases hc : isWS c
    · exact ih (by simpa [dropWS, hc] using h)
    · simp only [dropWS, hc, if_neg, Bool.false_eq_true, not_false_iff,
        List.head?_cons, Option.some.injEq] at h
      subst h
      simpa using hc

theorem dropWS_getLast {l : List Char} (h : dropWS l ≠ []) :
    (dropWS l).getLast? = l.getLast? := by
  induction l with
  | nil => simp [dropWS] at h
  | cons c rest ih =>
    by_cases hc : isWS c
    · have hr : dropWS rest ≠ [] := by simpa [dropWS, hc] using h
      have hrest : rest ≠ [] := by
        intro hn; rw [hn] at hr; simp [dropWS] at hr
      rw [show dropWS (c :: rest) = dropWS rest by simp [dropWS, hc], ih hr]
      obtain ⟨x, xs, rfl⟩ := List.exists_cons_of_ne_nil hrest
      exact (List.getLast?_cons_cons).symm
    · simp [dropWS, hc]

theorem dropWS_length_le (l : List Char) : (dropWS l).length ≤ l.length := by
  induction l with
  | nil => simp [dropWS]
  | cons c rest ih =>
    by_cases hc : isWS c
    · simp only [dropWS, hc, if_pos]
      exact Nat.le_succ_of_le ih
    · simp [dropWS, hc]

theorem pstrip_nil_iff {l : List Char} :
    pstrip l = [] ↔ ∀ x ∈ l, isWS x = true := by
  unfold pstrip
  rw [List.reverse_eq_nil_iff, dropWS_nil_iff]
  constructor
  · intro h
    refine dropWS_all (fun x hx => ?_)
    exact h x (by simpa using hx)
  · intro h x hx
    have : x ∈ dropWS l := by simpa using hx
    exact h x (dropWS_subset this)

theorem pstrip_ne_nil_of_mem {l : List Char} {x : Char} (hx : x ∈ l)
    (hw : isWS x = false) : pstrip l ≠ [] := by
  intro h
  have := (pstrip_nil_iff).mp h x hx
  rw [this] at hw
  exact Bool.true_eq_false.mp hw

theorem pstrip_head {l : List Char} (h : pstrip l ≠ []) :
    ∃ a, (pstrip l).head? = some a ∧ isWS a = false := by
  have h1 : dropWS (dropWS l).reverse ≠ [] := by
    intro hn; apply h; unfold pstrip; rw [hn]; rfl
  have h2 : dropWS l ≠ [] := by
    intro hn; apply h1; rw [hn]; rfl
  have hhead : (pstrip l).head? = (dropWS l).head? := by
    unfold pstrip
    rw [List.head?_reverse, dropWS_getLast h1, List.getLast?_reverse]
  obtain ⟨x, xs, hx⟩ := List.exists_cons_of_ne_nil h2
  refine ⟨x, ?_, ?_⟩
  · rw [hhead, hx]; rfl
  · exact dropWS_head (by rw [hx]; rfl)

theorem pstrip_getLast {l : List Char} (h : pstrip l ≠ []) :
    ∃ a, (pstrip l).getLast? = some a ∧ isWS a = false := by
  have h1 : dropWS (dropWS l).reverse ≠ [] := by
    intro hn; apply h; unfold pstrip; rw [hn]; rfl
  obtain ⟨x, xs, hx⟩ := List.exists_cons_of_ne_nil h1
  refine ⟨x, ?_, ?_⟩
  · unfold pstrip
    rw [List.getLast?_reverse, hx]; rfl
  · exact dropWS_head (by rw [hx]; rfl)

theorem pstrip_pstrip_ne_nil {l : List Char} (h : pstrip l ≠ []) :
    pstrip (pstrip l) ≠ [] := by
  obtain ⟨a, ha, hw⟩ := pstrip_head h
  have hmem : a ∈ pstrip l := by
    obtain ⟨x, xs, hx⟩ := List.exists_cons_of_ne_nil h
    rw [hx] at ha ⊢
    simp only [List.head?_cons, Option.some.injEq] at ha
    exact ha ▸ List.mem_cons_self _ _
  exact pstrip_ne_nil_of_mem hmem hw

theorem pstrip_length_le (l : List Char) : (pstrip l).length ≤ l.length :=
  calc (pstrip l).length = (dropWS (dropWS l).reverse).length := by
        unfold pstrip; rw [List.length_reverse]
    _ ≤ (dropWS l).reverse.length := dropWS_length_le _
    _ = (dropWS l).length := List.length_reverse _
    _ ≤ l.length := dropWS_length_le l

/-! ### Helper lemmas: `greatestBelow` and `rfind` -/

theorem greatestBelow_eq_neg_one {p : Nat → Bool} (h : ∀ i, p i = false) :
    ∀ n, greatestBelow p n = -1 := by
  intro n
  induction n with
  | zero => simp [greatestBelow, h 0]
  | succ n ih => simp [greatestBelow, h (n + 1), ih]

theorem greatestBelow_le {p : Nat → Bool} : ∀ n, greatestBelow p n ≤ (n : Int) := by
  intro n
  induction n with
  | zero =>
    by_cases h : p 0 <;> simp [greatestBelow, h]
  | succ n ih =>
    by_cases h : p (n + 1)
    · simp [greatestBelow, h]
    · simp only [greatestBelow, h, if_neg, Bool.false_eq_true, not_false_iff]
      exact le_trans ih (by exact_mod_cast Nat.le_succ n)

theorem neg_one_le_greatestBelow {p : Nat → Bool} :
    ∀ n, (-1 : Int) ≤ greatestBelow p n := by
  intro n
  induction n with
  | zero => by_cases h : p 0 <;> simp [greatestBelow, h]
  | succ n ih =>
    by_cases h : p (n + 1)
    · simp only [greatestBelow, h, if_pos]
      omega
    · simpa [greatestBelow, h] using ih

theorem greatestBelow_spec {p : Nat → Bool} {n : Nat}
    (h : 0 ≤ greatestBelow p n) :
    p (greatestBelow p n).toNat = true ∧ (greatestBelow p n).toNat ≤ n := by
  induction n with
  | zero =>
    by_cases hp : p 0
    · simpa [greatestBelow, hp] using hp
    · simp [greatestBelow, hp] at h
  | succ n ih =>
    by_cases hp : p (n + 1)
    · simpa [greatestBelow, hp] using hp
    · simp only [greatestBelow, hp, if_neg, Bool.false_eq_true, not_false_iff] at h ⊢
      obtain ⟨h1, h2⟩ := ih h
      exact ⟨h1, Nat.le_succ_of_le h2⟩

theorem greatestBelow_congr {p q : Nat → Bool} (h : ∀ i, p i = q i) :
    ∀ n, greatestBelow p n = greatestBelow q n := by
  intro n
  induction n with
  | zero => simp [greatestBelow, h 0]
  | succ n ih => simp [greatestBelow, h (n + 1), ih]

theorem greatestBelow_or (p q : Nat → Bool) :
    ∀ n, greatestBelow (fun i => p i || q i) n =
      max (greatestBelow p n) (greatestBelow q n) := by
  intro n
  induction n with
  | zero =>
    by_cases hp : p 0 <;> by_cases hq : q 0 <;>
      simp [greatestBelow, hp, hq]
  | succ n ih =>
    by_cases hp : p (n + 1) <;> by_cases hq : q (n + 1)
    · simp [greatestBelow, hp, hq]
    · simp only [greatestBelow, hp, hq, Bool.true_or, if_pos, if_neg,
        Bool.false_eq_true, not_false_iff]
      have := greatestBelow_le (p := q) n
      rw [max_eq_left]
      exact le_trans this (by exact_mod_cast Nat.le_succ n)
    · simp only [greatestBelow, hp, hq, Bool.or_true, if_pos, if_neg,
        Bool.false_eq_true, not_false_iff]
      have := greatestBelow_le (p := p) n
      rw [max_eq_right]
      exact le_trans this (by exact_mod_cast Nat.le_succ n)
    · simpa [greatestBelow, hp, hq] using ih

theorem isPrefList_head_mem {a : Char} {t l : List Char}
    (h : isPrefList (a :: t) l = true) : a ∈ l := by
  cases l with
  | nil => simp [isPrefList] at h
  | cons b bs =>
    simp only [isPrefList, Bool.and_eq_true, decide_eq_true_eq] at h
    exact h.1 ▸ List.mem_cons_self _ _

theorem matchesAt_lt {l pat : List Char} {i : Nat} (hp : pat ≠ [])
    (h : matchesAt l pat i = true) : i < l.length := by
  obtain ⟨a, t, rfl⟩ := List.exists_cons_of_ne_nil hp
  unfold matchesAt at h
  have : a ∈ l.drop i := isPrefList_head_mem h
  by_contra hge
  rw [List.drop_eq_nil_iff.mpr (Nat.le_of_not_lt hge)] at this
  exact absurd this (List.not_mem_nil a)

theorem matchesAt_mem {l pat : List Char} {i : Nat} {a : Char} {t : List Char}
    (hp : pat = a :: t) (h : matchesAt l pat i = true) : a ∈ l := by
  subst hp
  exact List.Sublist.subset (List.drop_sublist i l) (isPrefList_head_mem h)

/-! ### Helper lemmas: `sentenceEnd` -/

theorem sentenceEnd_eq_lastBoundary (w : List Char) :
    sentenceEnd w = lastBoundary w := by
  unfold lastBoundary
  have hcongr : ∀ i,
      (markers.any (fun m => matchesAt w m i)) =
      (matchesAt w ['.', ' '] i || (matchesAt w ['!', ' '] i ||
        (matchesAt w ['?', ' '] i || (matchesAt w ['\n'] i ||
          (matchesAt w ['.', '\n'] i || (matchesAt w ['!'] i ||
            matchesAt w ['?'] i)))))) := by
    intro i
    simp [markers, List.any_cons, List.any_nil]
  rw [greatestBelow_congr hcongr]
  simp only [greatestBelow_or]
  rfl

theorem sentenceEnd_lt {w : List Char} (h : 0 ≤ sentenceEnd w) :
    sentenceEnd w < (w.length : Int) := by
  rw [sentenceEnd_eq_lastBoundary] at h ⊢
  unfold lastBoundary at h ⊢
  obtain ⟨hp, _⟩ := greatestBelow_spec h
  rw [List.any_eq_true] at hp
  obtain ⟨m, hm, hmatch⟩ := hp
  have hne : m ≠ [] := by
    simp only [markers, List.mem_cons, List.not_mem_nil, or_false] at hm
    rcases hm with rfl | rfl | rfl | rfl | rfl | rfl | rfl <;> simp
  have hlt := matchesAt_lt hne hmatch
  have htn := Int.toNat_of_nonneg h
  omega

theorem sentenceEnd_eq_neg_one {w : List Char}
    (h : ∀ c ∈ w, c ≠ '.' ∧ c ≠ '!' ∧ c ≠ '?' ∧ c ≠ '\n') :
    sentenceEnd w = -1 := by
  rw [sentenceEnd_eq_lastBoundary]
  unfold lastBoundary
  refine greatestBelow_eq_neg_one (fun i => ?_) w.length
  rw [Bool.eq_false_iff]
  intro hany
  rw [List.any_eq_true] at hany
  obtain ⟨m, hm, hmatch⟩ := hany
  simp only [markers, List.mem_cons, List.not_mem_nil, or_false] at hm
  rcases hm with rfl | rfl | rfl | rfl | rfl | rfl | rfl
  · exact (h _ (matchesAt_mem rfl hmatch)).1 rfl
  · exact (h _ (matchesAt_mem rfl hmatch)).2.1 rfl
  · exact (h _ (matchesAt_mem rfl hmatch)).2.2.1 rfl
  · exact (h _ (matchesAt_mem rfl hmatch)).2.2.2 rfl
  · exact (h _ (matchesAt_mem rfl hmatch)).1 rfl
  · exact (h _ (matchesAt_mem rfl hmatch)).2.1 rfl
  · exact (h _ (matchesAt_mem rfl hmatch)).2.2.1 rfl

/-! ### Helper lemmas: slices and membership -/

theorem slice_length (l : List Char) (a b : Nat) :
    (slice l a b).length = min b l.length - a := by
  unfold slice
  rw [List.length_drop, List.length_take]

theorem slice_length_le (l : List Char) (a b : Nat) :
    (slice l a b).length ≤ l.length := by
  rw [slice_length]; omega

theorem slice_subset {l : List Char} {a b : Nat} {x : Char}
    (hx : x ∈ slice l a b) : x ∈ l := by
  unfold slice at hx
  exact List.Sublist.subset (List.take_sublist b l)
    (List.Sublist.subset (List.drop_sublist a _) hx)

theorem mem_of_getLast_some {l : List Char} {a : Char}
    (h : l.getLast? = some a) : a ∈ l := by
  cases l with
  | nil => simp at h
  | cons b bs =>
    have hne : (b :: bs : List Char) ≠ [] := by simp
    rw [List.getLast?_eq_getLast _ hne] at h
    exact (Option.some.injEq _ _).mp h ▸ List.getLast_mem hne

theorem mem_of_head_some {l : List Char} {a : Char}
    (h : l.head? = some a) : a ∈ l := by
  cases l with
  | nil => simp at h
  | cons b bs =>
    simp only [List.head?_cons, Option.some.injEq] at h
    exact h ▸ List.mem_cons_self _ _

theorem head_mem_take {l : List Char} {a : Char} {p : Nat}
    (h : l.head? = some a) (hp : 0 < p) : a ∈ l.take p := by
  cases l with
  | nil => simp at h
  | cons b bs =>
    simp only [List.head?_cons, Option.some.injEq] at h
    obtain ⟨k, rfl⟩ := Nat.exists_eq_add_of_lt hp
    subst h
    simp [List.take_cons]

theorem getLast_mem_drop {l : List Char} {b : Char} {p : Nat}
    (h : l.getLast? = some b) (hp : p < l.length) : b ∈ l.drop p := by
  have hdrop : l.drop p ≠ [] := by
    rw [Ne, List.drop_eq_nil_iff]; omega
  have : (l.drop p).getLast? = some b := by
    conv at h => rw [← List.take_append_drop p l]
    rw [List.getLast?_append] at h
    obtain ⟨x, xs, hx⟩ := List.exists_cons_of_ne_nil hdrop
    rw [hx] at h ⊢
    simpa [Option.or] using h
  exact mem_of_getLast_some this

/-! ### Helper lemmas: the chunking loop -/

theorem chunkLoop_succ_done (cs ov : Nat) (content : List Char) (fuel start : Nat)
    (h : start < content.length) :
    (chunkLoop cs ov content (fuel + 1) start).2 =
      (chunkLoop cs ov content fuel
        (nextStart ov content.length (windowEnd cs content start))).2 := by
  rw [chunkLoop]
  simp only [h, if_pos]

theorem windowEnd_final {cs : Nat} {content : List Char} {start : Nat}
    (h : content.length ≤ start + cs) : windowEnd cs content start = content.length := by
  unfold windowEnd
  rw [if_pos h]

theorem windowEnd_clean_mid {cs : Nat} {content : List Char} {start : Nat}
    (hclean : ∀ c ∈ content, c ≠ '.' ∧ c ≠ '!' ∧ c ≠ '?' ∧ c ≠ '\n')
    (h : start + cs < content.length) : windowEnd cs content start = start + cs := by
  unfold windowEnd
  rw [if_neg (by omega)]
  have hse : sentenceEnd (slice content start (start + cs)) = -1 :=
    sentenceEnd_eq_neg_one (fun c hc => hclean c (slice_subset hc))
  simp only [hse]
  rw [if_neg (not_lt.mpr (le_trans (by norm_num) (Int.ofNat_nonneg _))),
    min_eq_left (Nat.le_of_lt h)]

theorem c1_loop_stuck_at_3 :
    ∀ f, (chunkLoop 10 2 (List.replicate 5 'a') f 3).2 = false := by
  intro f
  induction f with
  | zero => decide
  | succ f ih =>
    rw [chunkLoop_succ_done 10 2 _ f 3 (by decide)]
    rw [show windowEnd 10 (List.replicate 5 'a') 3 = 5 from by decide]
    rw [show (List.replicate 5 'a').length = 5 from by decide]
    rw [show nextStart 2 5 5 = 3 from by decide]
    exact ih

/-- C1: the claim says `chunk_content` terminates for every text,
`chunk_size > 0` and `overlap_size ≥ 0`, because the cursor guard forces
progress.  The code violates this: on the 5-character text `"aaaaa"` with
`chunk_size = 10` and `overlap_size = 2`, the final chunk ends at 5 and the
next start is `5 - 2 = 3`, which none of the guards reset, so the loop
recomputes `start = 3` forever.  For every fuel bound the loop is
unfinished. -/
theorem c1_chunk_content_diverges :
    ∀ fuel, chunkContentFuel 10 2 (List.replicate 5 'a') fuel = none := by
  intro fuel
  unfold chunkContentFuel
  rw [if_neg (by decide : ¬(List.replicate 5 'a' = []))]
  rw [show truncateContent (List.replicate 5 'a') = List.replicate 5 'a' from by decide]
  have h0 : (chunkLoop 10 2 (List.replicate 5 'a') fuel 0).2 = false := by
    cases fuel with
    | zero => decide
    | succ f =>
      rw [chunkLoop_succ_done 10 2 _ f 0 (by decide)]
      rw [show windowEnd 10 (List.replicate 5 'a') 0 = 5 from by decide]
      rw [show (List.replicate 5 'a').length = 5 from by decide]
      rw [show nextStart 2 5 5 = 3 from by decide]
      exact c1_loop_stuck_at_3 f
  simp only [h0, Bool.false_eq_true, if_false]

theorem c2_loop_stuck_at_2400 (content : List Char) (hlen : content.length = 2500) :
    ∀ f, (chunkLoop 1000 100 content f 2400).2 = false := by
  intro f
  induction f with
  | zero => simp [chunkLoop, hlen]
  | succ f ih =>
    rw [chunkLoop_succ_done 1000 100 content f 2400 (by omega)]
    rw [windowEnd_final (by omega)]
    rw [hlen]
    rw [show nextStart 100 2500 2500 = 2400 from by decide]
    exact ih

theorem c2_loop_from_1800 (content : List Char) (hlen : content.length = 2500) :
    ∀ f, (chunkLoop 1000 100 content f 1800).2 = false := by
  intro f
  cases f with
  | zero => simp [chunkLoop, hlen]
  | succ f =>
    rw [chunkLoop_succ_done 1000 100 content f 1800 (by omega)]
    rw [windowEnd_final (by omega)]
    rw [hlen]
    rw [show nextStart 100 2500 2500 = 2400 from by decide]
    exact c2_loop_stuck_at_2400 content hlen f

theorem c2_loop_from_900 (content : List Char) (hlen : content.length = 2500)
    (hclean : ∀ c ∈ content, c ≠ '.' ∧ c ≠ '!' ∧ c ≠ '?' ∧ c ≠ '\n') :
    ∀ f, (chunkLoop 1000 100 content f 900).2 = false := by
  intro f
  cases f with
  | zero => simp [chunkLoop, hlen]
  | succ f =>
    rw [chunkLoop_succ_done 1000 100 content f 900 (by omega)]
    rw [windowEnd_clean_mid hclean (by omega)]
    rw [hlen]
    rw [show nextStart 100 2500 (900 + 1000) = 1800 from by decide]
    exact c2_loop_from_1800 content hlen f

/-- C2: on a 2500-character text with no sentence-terminal markers and
`chunk_size = 1000`, `overlap_size = 100`, the claim says `chunk_content`
returns exactly the three chunks `[0,1000)`, `[900,1900)`, `[1800,2500)`.
The code emits those three windows but then sets the cursor to
`2500 - 100 = 2400 < 2500` and loops forever re-emitting `[2400,2500)`:
for every fuel bound the loop is unfinished and nothing is returned. -/
theorem c2_chunk_content_diverges (content : List Char)
    (hlen : content.length = 2500)
    (hclean : ∀ c ∈ content, c ≠ '.' ∧ c ≠ '!' ∧ c ≠ '?' ∧ c ≠ '\n') :
    ∀ fuel, chunkContentFuel 1000 100 content fuel = none := by
  intro fuel
  unfold chunkContentFuel
  rw [if_neg (List.ne_nil_of_length_pos (by omega))]
  rw [show truncateContent content = content from by
    unfold truncateContent; rw [if_neg (by omega)]]
  have h0 : (chunkLoop 1000 100 content fuel 0).2 = false := by
    cases fuel with
    | zero => simp [chunkLoop, hlen]
    | succ f =>
      rw [chunkLoop_succ_done 1000 100 content f 0 (by omega)]
      rw [windowEnd_clean_mid hclean (by omega)]
      rw [hlen]
      rw [show nextStart 100 2500 (0 + 1000) = 900 from by decide]
      exact c2_loop_from_900 content hlen hclean f
  simp only [h0, Bool.false_eq_true, if_false]

/-- Witness for C2 at the concrete text of 2500 `'a'`s and fuel 9. -/
theorem c2_chunk_content_diverges_witness :
    chunkContentFuel 1000 100 (List.replicate 2500 'a') 9 = none :=
  c2_chunk_content_diverges (List.replicate 2500 'a') (List.length_replicate 2500 'a')
    (fun c hc => by rw [List.eq_of_mem_replicate hc]; decide) 9

/-- C7: for every non-final window (`start + chunk_size < content length`),
the chunker cuts at the last occurrence over all sentence-terminal markers
(`lastBoundary`, the spec's "last match wins" over all markers) exactly when
that index is strictly greater than half the window length, with cut end
`start + index + 1`; otherwise the full `chunk_size`-wide window is taken. -/
theorem c7_window_boundary (cs : Nat) (content : List Char) (start : Nat)
    (h : start + cs < content.length) :
    windowEnd cs content start =
      if ((cs / 2 : Nat) : Int) < lastBoundary (slice content start (start + cs))
      then start + (lastBoundary (slice content start (start + cs))).toNat + 1
      else start + cs := by
  unfold windowEnd
  rw [if_neg (by omega)]
  have hwl : (slice content start (start + cs)).length = cs := by
    rw [slice_length]; omega
  simp only [sentenceEnd_eq_lastBoundary, hwl]
  by_cases hc : ((cs / 2 : Nat) : Int) < lastBoundary (slice content start (start + cs))
  · rw [if_pos hc, if_pos hc]
  · rw [if_neg hc, if_neg hc, min_eq_left (Nat.le_of_lt h)]

/-- Witness for C7 on `"abcde. fghij"` with `chunk_size = 8`: the boundary
at index 5 lies past the midpoint 4, so the window is cut at `0 + 5 + 1`. -/
theorem c7_window_boundary_witness :
    0 + 8 < ("abcde. fghij".toList).length ∧
    windowEnd 8 ("abcde. fghij".toList) 0 =
      if ((8 / 2 : Nat) : Int) < lastBoundary (slice ("abcde. fghij".toList) 0 (0 + 8))
      then 0 + (lastBoundary (slice ("abcde. fghij".toList) 0 (0 + 8))).toNat + 1
      else 0 + 8 :=
  ⟨by decide, c7_window_boundary 8 ("abcde. fghij".toList) 0 (by decide)⟩

theorem splitLargeChunk_inv (c : List Char) (a b : Char)
    (hhead : c.head? = some a) (haw : isWS a = false)
    (hlast : c.getLast? = some b) (hbw : isWS b = false)
    (hgt : 20000 < c.length) (hle : c.length ≤ 30000) :
    ∀ fuel start, (start = 0 ∨ 10002 ≤ start) →
      ∀ t ∈ splitLargeChunk 20000 c fuel start,
        pstrip t ≠ [] ∧ t.length ≤ 20000 := by
  intro fuel
  induction fuel with
  | zero =>
    intro start _ t ht
    simp [splitLargeChunk] at ht
  | succ fuel ih =>
    intro start hstart t ht
    rw [splitLargeChunk] at ht
    by_cases h1 : start < c.length
    · rw [if_pos h1] at ht
      by_cases h2 : c.length ≤ start + 20000
      · rw [if_pos h2] at ht
        rw [List.mem_singleton] at ht
        subst ht
        refine ⟨pstrip_ne_nil_of_mem (getLast_mem_drop hlast h1) hbw, ?_⟩
        rw [List.length_drop]; omega
      · rw [if_neg h2] at ht
        have hs0 : start = 0 := by
          rcases hstart with rfl | hs
          · rfl
          · omega
        subst hs0
        have hsub : (slice c 0 (0 + 20000)).length = 20000 := by
          rw [slice_length]; omega
        by_cases h3 : (((slice c 0 (0 + 20000)).length / 2 : Nat) : Int) <
            sentenceEnd (slice c 0 (0 + 20000))
        · rw [if_pos h3] at ht
          have hpos : (0 : Int) ≤ sentenceEnd (slice c 0 (0 + 20000)) := by
            rw [hsub] at h3
            omega
          have hup := sentenceEnd_lt hpos
          rw [hsub] at hup h3
          have htn := Int.toNat_of_nonneg hpos
          have hlo : 10001 ≤ (sentenceEnd (slice c 0 (0 + 20000))).toNat := by omega
          have hhi : (sentenceEnd (slice c 0 (0 + 20000))).toNat ≤ 19999 := by omega
          rw [List.mem_cons] at ht
          rcases ht with rfl | ht
          · constructor
            · refine pstrip_ne_nil_of_mem ?_ haw
              unfold slice
              rw [List.drop_zero]
              exact head_mem_take hhead (by omega)
            · rw [slice_length]; omega
          · exact ih _ (Or.inr (by omega)) t ht
        · rw [if_neg h3] at ht
          rw [List.mem_cons] at ht
          rcases ht with rfl | ht
          · constructor
            · refine pstrip_ne_nil_of_mem ?_ haw
              unfold slice
              rw [List.drop_zero]
              exact head_mem_take hhead (by omega)
            · omega
          · exact ih _ (Or.inr (by omega)) t ht
    · rw [if_neg h1] at ht
      exact absurd ht (List.not_mem_nil t)

theorem emitChunks_inv (start e : Nat) (s0 : List Char) (h30 : s0.length ≤ 30000) :
    ∀ ch ∈ emitChunks start e (pstrip s0),
      pstrip ch.text ≠ [] ∧ ch.text.length ≤ 20000 := by
  intro ch hch
  unfold emitChunks at hch
  by_cases hnil : pstrip s0 = []
  · rw [if_pos hnil] at hch
    exact absurd hch (List.not_mem_nil ch)
  · rw [if_neg hnil] at hch
    have h30' : (pstrip s0).length ≤ 30000 := le_trans (pstrip_length_le s0) h30
    by_cases hbig : 20000 < (pstrip s0).length
    · rw [if_pos hbig] at hch
      rw [List.mem_map] at hch
      obtain ⟨t, ht, rfl⟩ := hch
      obtain ⟨a, ha, haw⟩ := pstrip_head hnil
      obtain ⟨b, hb, hbw⟩ := pstrip_getLast hnil
      exact splitLargeChunk_inv (pstrip s0) a b ha haw hb hbw hbig h30' _ 0 (Or.inl rfl) t ht
    · rw [if_neg hbig] at hch
      rw [List.mem_singleton] at hch
      subst hch
      exact ⟨pstrip_pstrip_ne_nil hnil, by show (pstrip s0).length ≤ 20000; omega⟩

theorem chunkLoop_inv (cs ov : Nat) (content : List Char)
    (h30 : content.length ≤ 30000) :
    ∀ fuel start ch, ch ∈ (chunkLoop cs ov content fuel start).1 →
      pstrip ch.text ≠ [] ∧ ch.text.length ≤ 20000 := by
  intro fuel
  induction fuel with
  | zero =>
    intro start ch hch
    simp [chunkLoop] at hch
  | succ fuel ih =>
    intro start ch hch
    rw [chunkLoop] at hch
    by_cases h : start < content.length
    · rw [if_pos h] at hch
      simp only [List.mem_append] at hch
      rcases hch with hch | hch
      · exact emitChunks_inv start _ (slice content start (windowEnd cs content start))
          (le_trans (slice_length_le _ _ _) h30) ch hch
      · exact ih _ ch hch
    · rw [if_neg h] at hch
      exact absurd hch (List.not_mem_nil ch)

/-- C8: every chunk record emitted by `chunk_content` — top-level chunks and
recursive sub-chunks alike — has text that is non-empty after trimming and
no longer than the hard maximum of 20000 characters, for every input text
and configuration (and at every stage of the loop). -/
theorem c8_chunk_record_invariant :
    ∀ (cs ov : Nat) (content : List Char) (fuel : Nat) (ch : ChunkRec),
      ch ∈ chunkEmitted cs ov content fuel →
      pstrip ch.text ≠ [] ∧ ch.text.length ≤ 20000 := by
  intro cs ov content fuel ch hch
  refine chunkLoop_inv cs ov (truncateContent content) ?_ fuel 0 ch hch
  unfold truncateContent
  by_cases h : 30000 < content.length
  · rw [if_pos h, List.length_take]
    omega
  · rw [if_neg h]
    omega

/-- Witness for C8: the single chunk emitted for the 2-character text
`"ab"` with `chunk_size = 5`, `overlap_size = 0`. -/
theorem c8_chunk_record_invariant_witness :
    (⟨['a', 'b'], 0, 2, false⟩ : ChunkRec) ∈ chunkEmitted 5 0 ['a', 'b'] 3 ∧
      (pstrip (['a', 'b'] : List Char) ≠ [] ∧
        (['a', 'b'] : List Char).length ≤ 20000) :=
  ⟨by decide, c8_chunk_record_invariant 5 0 ['a', 'b'] 3 ⟨['a', 'b'], 0, 2, false⟩ (by decide)⟩

/-! ### Helper lemmas: storage -/

theorem idempotentStoreEmbeddings_eq (pid : List Char → List Char)
    (client : List SPoint → List Char → Except Unit (List SPoint))
    (s : List SPoint) (batch : List EmbChunk) :
    idempotentStoreEmbeddings pid client s batch =
      if batch.filter (fun c => ! checkDuplicate client s c.contentHash) = [] then s
      else storeEmbeddings pid s
        (batch.filter (fun c => ! checkDuplicate client s c.contentHash)) := rfl

theorem storeEmbeddings_nil (pid : List Char → List Char) (s : List SPoint) :
    storeEmbeddings pid s [] = s := rfl

theorem storeEmbeddings_cons (pid : List Char → List Char) (s : List SPoint)
    (c : EmbChunk) (cl : List EmbChunk) :
    storeEmbeddings pid s (c :: cl) =
      storeEmbeddings pid (upsertPoint s (mkPoint pid c)) cl := rfl

theorem storeEmbeddings_append (pid : List Char → List Char) (s : List SPoint)
    (l1 l2 : List EmbChunk) :
    storeEmbeddings pid s (l1 ++ l2) =
      storeEmbeddings pid (storeEmbeddings pid s l1) l2 := by
  unfold storeEmbeddings
  rw [List.foldl_append]

theorem checkDuplicate_good (s : List SPoint) (h : List Char) :
    checkDuplicate goodHashClient s h = hasHash s h := by
  unfold checkDuplicate goodHashClient scrollByHash hasHash
  by_cases hf : s.filter (fun q => q.contentHash = h) = []
  · rw [hf]
    show decide ((([] : List SPoint).take 1) ≠ []) = s.any fun q => decide (q.contentHash = h)
    rw [show decide ((([] : List SPoint).take 1) ≠ []) = false from by simp]
    symm
    rw [Bool.eq_false_iff]
    intro hany
    rw [List.any_eq_true] at hany
    obtain ⟨q, hq, hqh⟩ := hany
    have hmem : q ∈ s.filter (fun q => q.contentHash = h) := List.mem_filter.mpr ⟨hq, hqh⟩
    rw [hf] at hmem
    exact absurd hmem (List.not_mem_nil q)
  · obtain ⟨x, xs, hx⟩ := List.exists_cons_of_ne_nil hf
    have hxm : x ∈ s.filter (fun q => q.contentHash = h) := by
      rw [hx]; exact List.mem_cons_self _ _
    obtain ⟨hxs, hxh⟩ := List.mem_filter.mp hxm
    rw [hx]
    show decide ((x :: xs).take 1 ≠ []) = s.any fun q => decide (q.contentHash = h)
    rw [show (x :: xs).take 1 = [x] from rfl,
      show (decide (([x] : List SPoint) ≠ [])) = true from by simp]
    exact (List.any_eq_true.mpr ⟨x, hxs, hxh⟩).symm

theorem mem_upsertPoint {st : List SPoint} {p q : SPoint}
    (hq : q ∈ upsertPoint st p) : q ∈ st ∨ q = p := by
  unfold upsertPoint at hq
  by_cases h : st.any (fun r => r.pid = p.pid)
  · rw [if_pos h, List.mem_map] at hq
    obtain ⟨r, hr, hrq⟩ := hq
    by_cases hc : r.pid = p.pid
    · right; rw [← hrq, if_pos hc]
    · left; rw [← hrq, if_neg hc]; exact hr
  · rw [if_neg h, List.mem_append] at hq
    rcases hq with hq | hq
    · exact Or.inl hq
    · exact Or.inr (List.mem_singleton.mp hq)

theorem sep_append_inj {a b a' b' : List Char} (ha : a.length = 64)
    (ha' : a'.length = 64) (h : a ++ '_' :: b = a' ++ '_' :: b') :
    a = a' ∧ b = b' := by
  have h1 : a = a' := by
    have t1 : (a ++ '_' :: b).take 64 = a := by rw [← ha]; exact List.take_left a _
    have t2 : (a' ++ '_' :: b').take 64 = a' := by rw [← ha']; exact List.take_left a' _
    rw [← t1, ← t2, h]
  subst h1
  have h2 := List.append_cancel_left h
  injection h2 with _ h3
  exact ⟨rfl, h3⟩

theorem storeWF_upsert_mk (pid : List Char → List Char) {st : List SPoint}
    {c : EmbChunk} (hwf : storeWF pid st) (hc64 : c.contentHash.length = 64) :
    storeWF pid (upsertPoint st (mkPoint pid c)) := by
  intro q hq
  rcases mem_upsertPoint hq with hq' | rfl
  · exact hwf q hq'
  · exact ⟨hc64, rfl⟩

theorem hasHash_upsert_mk (pid : List Char → List Char)
    (hinj : ∀ a b a' b' : List Char, a.length = 64 → a'.length = 64 →
      pid (a ++ '_' :: b) = pid (a' ++ '_' :: b') → a = a' ∧ b = b')
    {st : List SPoint} {c : EmbChunk} {h : List Char}
    (hwf : storeWF pid st) (hc64 : c.contentHash.length = 64)
    (hh : hasHash st h = true) :
    hasHash (upsertPoint st (mkPoint pid c)) h = true := by
  unfold hasHash at hh ⊢
  rw [List.any_eq_true] at hh ⊢
  obtain ⟨q0, hq0, hq0h⟩ := hh
  have hq0h' : q0.contentHash = h := of_decide_eq_true hq0h
  unfold upsertPoint
  by_cases hany : st.any (fun r => r.pid = (mkPoint pid c).pid)
  · rw [if_pos hany]
    by_cases hpid : q0.pid = (mkPoint pid c).pid
    · refine ⟨mkPoint pid c, List.mem_map.mpr ⟨q0, hq0, by rw [if_pos hpid]⟩, ?_⟩
      obtain ⟨h64, hpe⟩ := hwf q0 hq0
      have hpp : pid (q0.contentHash ++ '_' :: q0.chunkId) =
          pid (c.contentHash ++ '_' :: c.chunkId) := by
        rw [← hpe]; exact hpid
      have hch := (hinj _ _ _ _ h64 hc64 hpp).1
      exact decide_eq_true (show c.contentHash = h by rw [← hch]; exact hq0h')
    · exact ⟨q0, List.mem_map.mpr ⟨q0, hq0, by rw [if_neg hpid]⟩, hq0h⟩
  · rw [if_neg hany]
    exact ⟨q0, List.mem_append_left _ hq0, hq0h⟩

theorem hasHash_upsert_self (pid : List Char → List Char) (st : List SPoint)
    (c : EmbChunk) :
    hasHash (upsertPoint st (mkPoint pid c)) c.contentHash = true := by
  unfold hasHash upsertPoint
  rw [List.any_eq_true]
  by_cases hany : st.any (fun r => r.pid = (mkPoint pid c).pid)
  · rw [if_pos hany]
    rw [List.any_eq_true] at hany
    obtain ⟨q0, hq0, hp⟩ := hany
    have hp' : q0.pid = (mkPoint pid c).pid := of_decide_eq_true hp
    exact ⟨mkPoint pid c, List.mem_map.mpr ⟨q0, hq0, by rw [if_pos hp']⟩,
      decide_eq_true rfl⟩
  · rw [if_neg hany]
    exact ⟨mkPoint pid c, List.mem_append_right _ (List.mem_singleton.mpr rfl),
      decide_eq_true rfl⟩

theorem storeEmbeddings_pres (pid : List Char → List Char)
    (hinj : ∀ a b a' b' : List Char, a.length = 64 → a'.length = 64 →
      pid (a ++ '_' :: b) = pid (a' ++ '_' :: b') → a = a' ∧ b = b') :
    ∀ (bl : List EmbChunk), (∀ c ∈ bl, c.contentHash.length = 64) →
      ∀ st, storeWF pid st →
        storeWF pid (storeEmbeddings pid st bl) ∧
        ∀ h, hasHash st h = true → hasHash (storeEmbeddings pid st bl) h = true := by
  intro bl
  induction bl with
  | nil => exact fun _ st hwf => ⟨hwf, fun _ hh => hh⟩
  | cons c cl ih =>
    intro hb64 st hwf
    rw [storeEmbeddings_cons]
    have hc64 := hb64 c (List.mem_cons_self _ _)
    have hwf' := storeWF_upsert_mk pid hwf hc64
    obtain ⟨ihwf, ihh⟩ := ih (fun c' hc' => hb64 c' (List.mem_cons_of_mem _ hc')) _ hwf'
    exact ⟨ihwf, fun h hh => ihh h (hasHash_upsert_mk pid hinj hwf hc64 hh)⟩

/-- C3: ingesting the same batch twice through the idempotent store path
leaves the store exactly as one ingestion does: after the first run every
candidate's content-hash is present in the store, so the second run's
duplicate filter removes every candidate and nothing is written.  The
hypotheses record the operating conditions: content-hashes are 64-character
digests, the truncated SHA-256 point identifier is collision-free on them,
and every pre-existing point was written by this same path. -/
theorem c3_double_ingest_idempotent (pid : List Char → List Char)
    (hinj : ∀ a b a' b' : List Char, a.length = 64 → a'.length = 64 →
      pid (a ++ '_' :: b) = pid (a' ++ '_' :: b') → a = a' ∧ b = b')
    (s : List SPoint) (batch : List EmbChunk)
    (hb64 : ∀ c ∈ batch, c.contentHash.length = 64)
    (hwf : storeWF pid s) :
    idempotentStoreEmbeddings pid goodHashClient
        (idempotentStoreEmbeddings pid goodHashClient s batch) batch =
      idempotentStoreEmbeddings pid goodHashClient s batch := by
  have key : ∀ c ∈ batch,
      hasHash (idempotentStoreEmbeddings pid goodHashClient s batch) c.contentHash
        = true := by
    intro c hc
    rw [idempotentStoreEmbeddings_eq]
    by_cases hf1 : batch.filter
        (fun c' => ! checkDuplicate goodHashClient s c'.contentHash) = []
    · rw [if_pos hf1]
      have hnd := List.filter_eq_nil_iff.mp hf1 c hc
      rw [checkDuplicate_good] at hnd
      simpa using hnd
    · rw [if_neg hf1]
      have hsub64 : ∀ c' ∈ batch.filter
          (fun c' => ! checkDuplicate goodHashClient s c'.contentHash),
          c'.contentHash.length = 64 :=
        fun c' hc' => hb64 c' (List.mem_filter.mp hc').1
      by_cases hdup : checkDuplicate goodHashClient s c.contentHash = true
      · have h0 : hasHash s c.contentHash = true := by
          rwa [checkDuplicate_good] at hdup
        exact (storeEmbeddings_pres pid hinj _ hsub64 s hwf).2 _ h0
      · have hcf : c ∈ batch.filter
            (fun c' => ! checkDuplicate goodHashClient s c'.contentHash) :=
          List.mem_filter.mpr ⟨hc, by
            rw [Bool.not_eq_true] at hdup
            rw [hdup]; rfl⟩
        obtain ⟨pre, post, hsplit⟩ := List.append_of_mem hcf
        rw [hsplit, storeEmbeddings_append, storeEmbeddings_cons]
        have hpre64 : ∀ c' ∈ pre, c'.contentHash.length = 64 := fun c' hc' =>
          hsub64 c' (by rw [hsplit]; exact List.mem_append_left _ hc')
        have hpost64 : ∀ c' ∈ post, c'.contentHash.length = 64 := fun c' hc' =>
          hsub64 c' (by
            rw [hsplit]
            exact List.mem_append_right _ (List.mem_cons_of_mem _ hc'))
        have hwf1 : storeWF pid (storeEmbeddings pid s pre) :=
          (storeEmbeddings_pres pid hinj pre hpre64 s hwf).1
        have hwf2 : storeWF pid
            (upsertPoint (storeEmbeddings pid s pre) (mkPoint pid c)) :=
          storeWF_upsert_mk pid hwf1 (hb64 c hc)
        exact (storeEmbeddings_pres pid hinj post hpost64 _ hwf2).2 _
          (hasHash_upsert_self pid _ c)
  have hfil2 : batch.filter (fun c => ! checkDuplicate goodHashClient
      (idempotentStoreEmbeddings pid goodHashClient s batch) c.contentHash) = [] := by
    rw [List.filter_eq_nil_iff]
    intro c hc
    rw [checkDuplicate_good, key c hc]
    simp
  rw [idempotentStoreEmbeddings_eq pid goodHashClient
    (idempotentStoreEmbeddings pid goodHashClient s batch) batch, hfil2, if_pos rfl]

/-- Witness for C3: one chunk with a 64-character hash ingested twice into
an empty store, with the identity function standing in for the (injective)
truncated digest. -/
theorem c3_double_ingest_idempotent_witness :
    idempotentStoreEmbeddings (fun l => l) goodHashClient
        (idempotentStoreEmbeddings (fun l => l) goodHashClient []
          [⟨['c'], ['u'], List.replicate 64 'f', ['b']⟩])
        [⟨['c'], ['u'], List.replicate 64 'f', ['b']⟩] =
      idempotentStoreEmbeddings (fun l => l) goodHashClient []
        [⟨['c'], ['u'], List.replicate 64 'f', ['b']⟩] :=
  c3_double_ingest_idempotent (fun l => l)
    (fun _ _ _ _ ha ha' h => sep_append_inj ha ha' h)
    [] [⟨['c'], ['u'], List.replicate 64 'f', ['b']⟩] (by decide)
    (fun q hq => absurd hq (List.not_mem_nil q))

theorem hasPid_upsert_self (st : List SPoint) (p : SPoint) :
    ∃ q ∈ upsertPoint st p, q.pid = p.pid := by
  unfold upsertPoint
  by_cases hany : st.any (fun r => r.pid = p.pid)
  · rw [if_pos hany]
    rw [List.any_eq_true] at hany
    obtain ⟨q0, hq0, hp⟩ := hany
    have hp' : q0.pid = p.pid := of_decide_eq_true hp
    exact ⟨p, List.mem_map.mpr ⟨q0, hq0, by rw [if_pos hp']⟩, rfl⟩
  · rw [if_neg hany]
    exact ⟨p, List.mem_append_right _ (List.mem_singleton.mpr rfl), rfl⟩

theorem hasPid_upsert_mono {st : List SPoint} {P : List Char}
    (h : ∃ q ∈ st, q.pid = P) (p : SPoint) :
    ∃ q ∈ upsertPoint st p, q.pid = P := by
  obtain ⟨q0, hq0, hq0p⟩ := h
  unfold upsertPoint
  by_cases hany : st.any (fun r => r.pid = p.pid)
  · rw [if_pos hany]
    by_cases hc : q0.pid = p.pid
    · exact ⟨p, List.mem_map.mpr ⟨q0, hq0, by rw [if_pos hc]⟩, by rw [← hc, hq0p]⟩
    · exact ⟨q0, List.mem_map.mpr ⟨q0, hq0, by rw [if_neg hc]⟩, hq0p⟩
  · rw [if_neg hany]
    exact ⟨q0, List.mem_append_left _ hq0, hq0p⟩

theorem hasPid_storeEmbeddings (pid : List Char → List Char) {P : List Char} :
    ∀ (bl : List EmbChunk) (st : List SPoint),
      (∃ q ∈ st, q.pid = P) →
      ∃ q ∈ storeEmbeddings pid st bl, q.pid = P := by
  intro bl
  induction bl with
  | nil => exact fun st h => h
  | cons c cl ih =>
    intro st h
    rw [storeEmbeddings_cons]
    exact ih _ (hasPid_upsert_mono h (mkPoint pid c))

/-- C5: when the duplicate lookup for a candidate raises, `check_duplicate`
fails open and reports "not a duplicate", so the idempotent store path keeps
the candidate and persists it: the final store contains a point whose
identifier is the candidate's deterministic point id. -/
theorem c5_lookup_error_fails_open (pid : List Char → List Char)
    (client : List SPoint → List Char → Except Unit (List SPoint))
    (s : List SPoint) (batch : List EmbChunk) (c : EmbChunk)
    (hc : c ∈ batch) (he : client s c.contentHash = Except.error ()) :
    checkDuplicate client s c.contentHash = false ∧
    ∃ q ∈ idempotentStoreEmbeddings pid client s batch,
      q.pid = pid (pidString c) := by
  have h1 : checkDuplicate client s c.contentHash = false := by
    unfold checkDuplicate
    rw [he]
  refine ⟨h1, ?_⟩
  have hcf : c ∈ batch.filter (fun c' => ! checkDuplicate client s c'.contentHash) :=
    List.mem_filter.mpr ⟨hc, by rw [h1]; rfl⟩
  have hne : batch.filter (fun c' => ! checkDuplicate client s c'.contentHash) ≠ [] :=
    List.ne_nil_of_mem hcf
  rw [idempotentStoreEmbeddings_eq, if_neg hne]
  obtain ⟨pre, post, hsplit⟩ := List.append_of_mem hcf
  rw [hsplit, storeEmbeddings_append, storeEmbeddings_cons]
  exact hasPid_storeEmbeddings pid post _ (hasPid_upsert_self _ (mkPoint pid c))

/-- Witness for C5: a single candidate against an always-erroring lookup
client and an empty store. -/
theorem c5_lookup_error_fails_open_witness :
    checkDuplicate errClient [] (⟨['i'], ['u'], ['h'], []⟩ : EmbChunk).contentHash = false ∧
    ∃ q ∈ idempotentStoreEmbeddings (fun l => l) errClient []
        [⟨['i'], ['u'], ['h'], []⟩],
      q.pid = (fun l : List Char => l) (pidString ⟨['i'], ['u'], ['h'], []⟩) :=
  c5_lookup_error_fails_open (fun l => l) errClient [] [⟨['i'], ['u'], ['h'], []⟩]
    ⟨['i'], ['u'], ['h'], []⟩ (List.mem_singleton.mpr rfl) rfl

theorem storeEmbeddings_origin (pid : List Char → List Char) :
    ∀ (bl : List EmbChunk) (st : List SPoint) (q : SPoint),
      q ∈ storeEmbeddings pid st bl → q ∈ st ∨ ∃ c ∈ bl, q = mkPoint pid c := by
  intro bl
  induction bl with
  | nil => exact fun st q hq => Or.inl hq
  | cons c cl ih =>
    intro st q hq
    rw [storeEmbeddings_cons] at hq
    rcases ih _ q hq with hq' | ⟨c', hc', rfl⟩
    · rcases mem_upsertPoint hq' with h | rfl
      · exact Or.inl h
      · exact Or.inr ⟨c, List.mem_cons_self _ _, rfl⟩
    · exact Or.inr ⟨c', List.mem_cons_of_mem _ hc', rfl⟩

theorem self_mem_upsert (st : List SPoint) (p : SPoint) : p ∈ upsertPoint st p := by
  unfold upsertPoint
  by_cases hany : st.any (fun r => r.pid = p.pid)
  · rw [if_pos hany]
    rw [List.any_eq_true] at hany
    obtain ⟨q0, hq0, hp⟩ := hany
    exact List.mem_map.mpr ⟨q0, hq0, by rw [if_pos (of_decide_eq_true hp)]⟩
  · rw [if_neg hany]
    exact List.mem_append_right _ (List.mem_singleton.mpr rfl)

theorem mk_mem_upsert_mono {pid : List Char → List Char} {bl0 : List EmbChunk}
    {st : List SPoint}
    (h : ∃ q ∈ st, ∃ c ∈ bl0, q = mkPoint pid c) {c'' : EmbChunk}
    (hc'' : c'' ∈ bl0) :
    ∃ q ∈ upsertPoint st (mkPoint pid c''), ∃ c ∈ bl0, q = mkPoint pid c := by
  obtain ⟨q, hq, c, hc, rfl⟩ := h
  unfold upsertPoint
  by_cases hany : st.any (fun r => r.pid = (mkPoint pid c'').pid)
  · rw [if_pos hany]
    by_cases hcc : (mkPoint pid c).pid = (mkPoint pid c'').pid
    · exact ⟨mkPoint pid c'', List.mem_map.mpr ⟨_, hq, by rw [if_pos hcc]⟩,
        c'', hc'', rfl⟩
    · exact ⟨mkPoint pid c, List.mem_map.mpr ⟨_, hq, by rw [if_neg hcc]⟩, c, hc, rfl⟩
  · rw [if_neg hany]
    exact ⟨mkPoint pid c, List.mem_append_left _ hq, c, hc, rfl⟩

theorem storeEmbeddings_pres_mk (pid : List Char → List Char) (bl0 : List EmbChunk) :
    ∀ (bl : List EmbChunk) (st : List SPoint), (∀ c ∈ bl, c ∈ bl0) →
      (∃ q ∈ st, ∃ c ∈ bl0, q = mkPoint pid c) →
      ∃ q ∈ storeEmbeddings pid st bl, ∃ c ∈ bl0, q = mkPoint pid c := by
  intro bl
  induction bl with
  | nil => exact fun st _ h => h
  | cons c cl ih =>
    intro st hsub h
    rw [storeEmbeddings_cons]
    exact ih _ (fun c' hc' => hsub c' (List.mem_cons_of_mem _ hc'))
      (mk_mem_upsert_mono h (hsub c (List.mem_cons_self _ _)))

theorem storeEmbeddings_exists_mk (pid : List Char → List Char)
    (bl : List EmbChunk) (st : List SPoint) (hne : bl ≠ []) :
    ∃ q ∈ storeEmbeddings pid st bl, ∃ c ∈ bl, q = mkPoint pid c := by
  obtain ⟨c0, cl, rfl⟩ := List.exists_cons_of_ne_nil hne
  rw [storeEmbeddings_cons]
  refine storeEmbeddings_pres_mk pid (c0 :: cl) cl _
    (fun c hc => List.mem_cons_of_mem _ hc) ?_
  exact ⟨mkPoint pid c0, self_mem_upsert _ _, c0, List.mem_cons_self _ _, rfl⟩

theorem checkContentChange_good (s : List SPoint) (u h : List Char) :
    checkContentChange goodUrlClient s u h =
      if scrollByUrl s u = [] then (true, none)
      else (decide (h ∉ ((scrollByUrl s u).map (fun q => q.contentHash)).filter
              (fun x => x ≠ [])),
            (((scrollByUrl s u).map (fun q => q.contentHash)).filter
              (fun x => x ≠ [])).head?) := rfl

set_option maxRecDepth 4000 in
/-- Counterexample for C6: with 101 points stored for a URL, the change
check scrolls only the first 100 of them, so a candidate hash carried only
by the 101st point is reported as changed even though it is among the
hashes stored for the URL. -/
theorem c6_change_detection_counterexample :
    (checkContentChange goodUrlClient
        ((List.range 101).map
          (fun i => ⟨[], ['u'], [Char.ofNat (65 + i)], [], []⟩))
        ['u'] [Char.ofNat 165]).1 = true ∧
    (((List.range 101).map
        (fun i => (⟨[], ['u'], [Char.ofNat (65 + i)], [], []⟩ : SPoint))).filter
      (fun q => q.url = ['u'])).any
        (fun q => q.contentHash = [Char.ofNat 165]) = true := by
  decide

/-- C6 (amended): `check_content_change` reports `(true, none)` on a lookup
error (fail closed) and when no points exist for the URL (first ingestion);
otherwise `changed` is true exactly when the candidate hash is absent from
the non-empty content-hashes of the *first 100* points returned for the URL
(the lookup is capped at `limit=100`).  Consequently, after storing a batch
for a fresh URL `u` with hash `h1`, re-checking with `h2 ≠ h1` reports
changed and re-checking with `h1` reports unchanged. -/
theorem c6_change_detection_amended :
    (∀ s u h, checkContentChange errClient s u h = (true, none)) ∧
    (∀ s u h, s.filter (fun q => q.url = u) = [] →
      checkContentChange goodUrlClient s u h = (true, none)) ∧
    (∀ (pid : List Char → List Char) (s0 : List SPoint) (u h1 h2 : List Char)
        (batch : List EmbChunk), batch ≠ [] →
      (∀ c ∈ batch, c.url = u ∧ c.contentHash = h1) → h1 ≠ [] →
      s0.filter (fun q => q.url = u) = [] → h2 ≠ h1 →
      (checkContentChange goodUrlClient (storeEmbeddings pid s0 batch) u h2).1
          = true ∧
      (checkContentChange goodUrlClient (storeEmbeddings pid s0 batch) u h1).1
          = false) := by
  refine ⟨fun s u h => rfl, ?_, ?_⟩
  · intro s u h hf
    rw [checkContentChange_good,
      if_pos (show scrollByUrl s u = [] by unfold scrollByUrl; rw [hf]; rfl)]
  · intro pid s0 u h1 h2 batch hbne hbu h1ne hs0f h21
    have horig := storeEmbeddings_origin pid batch s0
    have hC : ∀ q ∈ (storeEmbeddings pid s0 batch).filter (fun q => q.url = u),
        q.contentHash = h1 := by
      intro q hq
      obtain ⟨hqs, hqu⟩ := List.mem_filter.mp hq
      have hqu' : q.url = u := of_decide_eq_true hqu
      rcases horig q hqs with hq0 | ⟨c, hcb, rfl⟩
      · exfalso
        have hmem : q ∈ s0.filter (fun q => q.url = u) :=
          List.mem_filter.mpr ⟨hq0, decide_eq_true hqu'⟩
        rw [hs0f] at hmem
        exact absurd hmem (List.not_mem_nil q)
      · exact (hbu c hcb).2
    have hD : (storeEmbeddings pid s0 batch).filter (fun q => q.url = u) ≠ [] := by
      obtain ⟨q, hqs, c, hcb, rfl⟩ := storeEmbeddings_exists_mk pid batch s0 hbne
      exact List.ne_nil_of_mem
        (List.mem_filter.mpr ⟨hqs, decide_eq_true (hbu c hcb).1⟩)
    have hpts : scrollByUrl (storeEmbeddings pid s0 batch) u ≠ [] := by
      unfold scrollByUrl
      rw [Ne, List.take_eq_nil_iff]
      rintro (h100 | hnil)
      · exact absurd h100 (by norm_num)
      · exact hD hnil
    have hHash : ∀ q ∈ scrollByUrl (storeEmbeddings pid s0 batch) u,
        q.contentHash = h1 := by
      intro q hq
      refine hC q ?_
      unfold scrollByUrl at hq
      exact List.Sublist.subset (List.take_sublist _ _) hq
    set ex := ((scrollByUrl (storeEmbeddings pid s0 batch) u).map
      (fun q => q.contentHash)).filter (fun x => x ≠ []) with hex
    have hexmem : h1 ∈ ex := by
      obtain ⟨y, ys, hy⟩ := List.exists_cons_of_ne_nil hpts
      have hymem : y ∈ scrollByUrl (storeEmbeddings pid s0 batch) u := by
        rw [hy]; exact List.mem_cons_self _ _
      have hyh := hHash y hymem
      exact List.mem_filter.mpr
        ⟨List.mem_map.mpr ⟨y, hymem, hyh⟩, decide_eq_true h1ne⟩
    have hexall : ∀ x ∈ ex, x = h1 := by
      intro x hx
      obtain ⟨hxm, _⟩ := List.mem_filter.mp hx
      obtain ⟨q, hq, rfl⟩ := List.mem_map.mp hxm
      exact hHash q hq
    constructor
    · rw [checkContentChange_good, if_neg hpts]
      show decide (h2 ∉ ex) = true
      exact decide_eq_true (fun hmem => h21 (hexall h2 hmem))
    · rw [checkContentChange_good, if_neg hpts]
      show decide (h1 ∉ ex) = false
      exact decide_eq_false (not_not_intro hexmem)

/-- Witness for C6: storing one chunk for URL `u` with hash `x` into an
empty store, then re-checking with `y ≠ x` (changed) and with `x`
(unchanged). -/
theorem c6_change_detection_amended_witness :
    (checkContentChange goodUrlClient
        (storeEmbeddings (fun l => l) [] [⟨['i'], ['u'], ['x'], []⟩])
        ['u'] ['y']).1 = true ∧
    (checkContentChange goodUrlClient
        (storeEmbeddings (fun l => l) [] [⟨['i'], ['u'], ['x'], []⟩])
        ['u'] ['x']).1 = false :=
  c6_change_detection_amended.2.2 (fun l => l) [] ['u'] ['x'] ['y']
    [⟨['i'], ['u'], ['x'], []⟩] (by decide) (by decide) (by decide) rfl (by decide)

/-! ### Helper lemmas: consistency harness -/

theorem filterMap_length_of_some {α β : Type} (f : α → Option β) :
    ∀ (l : List α), (∀ x ∈ l, ∃ y, f x = some y) →
      (l.filterMap f).length = l.length := by
  intro l
  induction l with
  | nil => simp
  | cons a l ih =>
    intro h
    obtain ⟨y, hy⟩ := h a (List.mem_cons_self _ _)
    rw [List.filterMap_cons, hy]
    simp only [List.length_cons]
    rw [ih (fun x hx => h x (List.mem_cons_of_mem _ hx))]

theorem consistencyStats_eq (outs : List (Option (List (List Char)))) :
    consistencyStats outs =
      if 1 < (outs.filterMap id).length then
        if (outs.filterMap id).filterMap List.head? = [] then ((0 : ℚ), false)
        else ((modeCount ((outs.filterMap id).filterMap List.head?) : ℚ) /
            (((outs.filterMap id).filterMap List.head?).length : ℚ),
          decide (1 < ((outs.filterMap id).filterMap List.head?).dedup.length))
      else ((0 : ℚ), false) := rfl

/-- Counterexample for C4: a single run (N = 1) whose top result id is `A`.
Every run's top id equals the most frequent top id, so the claim's formula
gives 1/1 = 1, but the code's `len(all_results) > 1` guard leaves the
initial score 0.0. -/
theorem c4_consistency_score_counterexample :
    (consistencyStats [some [['A']]]).1 = 0 ∧
    (consistencyStats [some [['A']]]).1 ≠ 1 / 1 := by
  constructor
  · rfl
  · intro h
    rw [show (consistencyStats [some [['A']]]).1 = 0 from rfl] at h
    norm_num at h

/-- C4 (amended): when at least two of the N runs succeed — in particular
when all N succeed with nonempty result lists, so the denominator (the
number of successful nonempty runs) equals N — the reported
consistency_score is (count of runs whose top id is the most frequent top
id) / N, and results_varied is whether more than one distinct top id
occurred.  With fewer than two successful runs the reported score is 0. -/
theorem c4_consistency_score_amended (outs : List (Option (List (List Char))))
    (N : Nat) (hN : outs.length = N) (h2 : 2 ≤ N)
    (hall : ∀ o ∈ outs, ∃ l, o = some l ∧ l ≠ []) :
    (consistencyStats outs).1 = (modeCount (topIds outs) : ℚ) / (N : ℚ) ∧
    (consistencyStats outs).2 = decide (1 < (topIds outs).dedup.length) := by
  have hlen1 : (outs.filterMap id).length = outs.length :=
    filterMap_length_of_some id outs (fun o ho => by
      obtain ⟨l, hl, _⟩ := hall o ho
      exact ⟨l, hl⟩)
  have hne : ∀ l ∈ outs.filterMap id, l ≠ [] := by
    intro l hl
    rw [List.mem_filterMap] at hl
    obtain ⟨o, ho, hol⟩ := hl
    obtain ⟨l', hl', hne'⟩ := hall o ho
    rw [hl'] at hol
    exact (Option.some.inj hol) ▸ hne'
  have hlen2 : ((outs.filterMap id).filterMap List.head?).length
      = (outs.filterMap id).length :=
    filterMap_length_of_some List.head? _ (fun l hl => by
      obtain ⟨x, xs, hx⟩ := List.exists_cons_of_ne_nil (hne l hl)
      exact ⟨x, by rw [hx]; rfl⟩)
  have hfne : (outs.filterMap id).filterMap List.head? ≠ [] := by
    intro h0
    have hcon := congrArg List.length h0
    rw [hlen2, hlen1, hN] at hcon
    simp only [List.length_nil] at hcon
    omega
  rw [consistencyStats_eq, if_pos (by rw [hlen1, hN]; omega), if_neg hfne]
  constructor
  · show (modeCount ((outs.filterMap id).filterMap List.head?) : ℚ) /
        (((outs.filterMap id).filterMap List.head?).length : ℚ) =
      (modeCount (topIds outs) : ℚ) / (N : ℚ)
    rw [show ((outs.filterMap id).filterMap List.head?).length = N by
      rw [hlen2, hlen1, hN]]
    rfl
  · rfl

/-- Witness for C4: 5 runs, 4 of which return top id `A` and one top id
`B`: score 4/5 = 0.8, results varied. -/
theorem c4_consistency_score_amended_witness :
    (consistencyStats [some [['A']], some [['A']], some [['A']], some [['A']],
        some [['B']]]).1 = 4 / 5 ∧
    (consistencyStats [some [['A']], some [['A']], some [['A']], some [['A']],
        some [['B']]]).2 = true := by
  have h := c4_consistency_score_amended
    [some [['A']], some [['A']], some [['A']], some [['A']], some [['B']]] 5 rfl
    (by norm_num)
    (by intro o ho
        fin_cases ho <;> exact ⟨_, rfl, by decide⟩)
  constructor
  · rw [h.1]
    rw [show modeCount (topIds [some [['A']], some [['A']], some [['A']],
      some [['A']], some [['B']]]) = 4 from rfl]
    norm_num
  · rw [h.2]
    decide

/-- C9: the validation accuracy score is 0 when no results are retrieved; a
validation test passes exactly when the accuracy reaches 0.85 (also on the
empty-result and exception paths, where the accuracy is 0); and a single
retrieved chunk containing every word of the expected text with similarity
score 0.9 scores `min(1, 0.9) = 0.9` and passes. -/
theorem c9_validation_accuracy :
    (∀ e, calculateAccuracyScore [] e = 0) ∧
    (∀ (o : Option (List RChunk)) (e : List Char),
      (runValidationTest o e).2 = decide (85 / 100 ≤ (runValidationTest o e).1)) ∧
    (∀ (ch : RChunk) (e : List Char),
      (∀ w ∈ pysplit (lowerChars e), w ∈ pysplit (lowerChars ch.content)) →
      pysplit (lowerChars e) ≠ [] → ch.score = 9 / 10 →
      runValidationTest (some [ch]) e = (9 / 10, true)) := by
  refine ⟨fun e => rfl, ?_, ?_⟩
  · intro o e
    cases o with
    | none =>
      show false = decide ((85 : ℚ) / 100 ≤ 0)
      rw [decide_eq_false (by norm_num : ¬((85 : ℚ) / 100 ≤ 0))]
    | some rs => rfl
  · intro ch e hw hne hs
    have hewne : (pysplit (lowerChars e)).dedup ≠ [] := by
      rw [Ne, List.dedup_eq_nil]
      exact hne
    have hcommon : (pysplit (lowerChars e)).dedup.filter
        (fun w => decide (w ∈ pysplit (lowerChars ch.content)))
        = (pysplit (lowerChars e)).dedup :=
      List.filter_eq_self.mpr
        (fun w hwm => decide_eq_true (hw w (List.mem_dedup.mp hwm)))
    have hlen0 : (((pysplit (lowerChars e)).dedup.length : ℚ)) ≠ 0 := by
      simp only [ne_eq, Nat.cast_eq_zero, List.length_eq_zero]
      exact hewne
    have hcontrib : chunkContrib (pysplit (lowerChars e)).dedup ch = some (9 / 10) := by
      unfold chunkContrib
      rw [hcommon, if_neg hewne, hs]
      congr 1
      rw [div_self hlen0]
      exact min_eq_right (by norm_num)
    have hacc : calculateAccuracyScore [ch] e = 9 / 10 := by
      unfold calculateAccuracyScore
      rw [if_neg (List.cons_ne_nil ch []),
        show List.filterMap (chunkContrib (pysplit (lowerChars e)).dedup) [ch]
          = [9 / 10] from by rw [List.filterMap_cons, hcontrib]; rfl]
      rw [if_neg (by simp)]
      show ((9 : ℚ) / 10 + 0) / ((1 : Nat) : ℚ) = 9 / 10
      norm_num
    show ((if ([ch] : List RChunk) = [] then (0 : ℚ) else calculateAccuracyScore [ch] e),
        decide ((85 : ℚ) / 100 ≤
          (if ([ch] : List RChunk) = [] then (0 : ℚ) else calculateAccuracyScore [ch] e)))
      = ((9 : ℚ) / 10, true)
    rw [if_neg (List.cons_ne_nil ch []), hacc,
      decide_eq_true (by norm_num : (85 : ℚ) / 100 ≤ 9 / 10)]

/-- Witness for C9: expected text `"ab cd"` and a chunk containing both of
its words with score 0.9. -/
theorem c9_validation_accuracy_witness :
    runValidationTest (some [⟨"ab cd".toList, 9 / 10⟩]) ("ab cd".toList)
      = (9 / 10, true) :=
  c9_validation_accuracy.2.2 ⟨"ab cd".toList, 9 / 10⟩ ("ab cd".toList)
    (by decide) (by decide) rfl

theorem validateQueryText_false_iff (q : List Char) :
    (validateQueryText q).1 = false ↔
      (pstrip q = [] ∨ (pstrip q).length < 3 ∨ 10000 < q.length) := by
  unfold validateQueryText
  by_cases h1 : q = [] ∨ pstrip q = []
  · rw [if_pos h1]
    refine ⟨fun _ => Or.inl ?_, fun _ => rfl⟩
    rcases h1 with rfl | h
    · rfl
    · exact h
  · rw [if_neg h1]
    by_cases h2 : (pstrip q).length < 3
    · rw [if_pos h2]
      exact ⟨fun _ => Or.inr (Or.inl h2), fun _ => rfl⟩
    · rw [if_neg h2]
      by_cases h3 : 10000 < q.length
      · rw [if_pos h3]
        exact ⟨fun _ => Or.inr (Or.inr h3), fun _ => rfl⟩
      · rw [if_neg h3]
        constructor
        · intro hfalse
          exact absurd hfalse (by simp)
        · intro hor
          rcases hor with h | h | h
          · exact absurd (Or.inr h) h1
          · exact absurd h h2
          · exact absurd h h3

theorem validateTopKValue_false_iff (k : Int) :
    (validateTopKValue k).1 = false ↔ (k < 1 ∨ 100 < k) := by
  unfold validateTopKValue
  by_cases h1 : k < 1
  · rw [if_pos h1]
    exact ⟨fun _ => Or.inl h1, fun _ => rfl⟩
  · rw [if_neg h1]
    by_cases h2 : 100 < k
    · rw [if_pos h2]
      exact ⟨fun _ => Or.inr h2, fun _ => rfl⟩
    · rw [if_neg h2]
      constructor
      · intro hfalse
        exact absurd hfalse (by simp)
      · intro hor
        rcases hor with h | h
        · exact absurd h h1
        · exact absurd h h2

/-- C10: `retrieve_content` raises a ValueError before calling the embedding
or search collaborators exactly when the query is empty/whitespace-only,
shorter than 3 characters after stripping, or longer than 10000 characters,
or `top_k` lies outside 1..100; for valid inputs it proceeds (no error). -/
theorem c10_retrieve_content_validation :
    ∀ (q : List Char) (k : Int),
      (∃ m, retrieveContentValidate q k = Except.error m) ↔
      (pstrip q = [] ∨ (pstrip q).length < 3 ∨ 10000 < q.length ∨
        k < 1 ∨ 100 < k) := by
  intro q k
  unfold retrieveContentValidate
  by_cases hq : (validateQueryText q).1 = true
  · rw [if_neg (not_not_intro hq)]
    by_cases hk : (validateTopKValue k).1 = true
    · rw [if_neg (not_not_intro hk)]
      constructor
      · rintro ⟨m, hm⟩
        exact Except.noConfusion hm
      · intro hor
        rcases hor with h | h | h | h | h
        · have hf := (validateQueryText_false_iff q).mpr (Or.inl h)
          rw [hq] at hf
          exact absurd hf (by simp)
        · have hf := (validateQueryText_false_iff q).mpr (Or.inr (Or.inl h))
          rw [hq] at hf
          exact absurd hf (by simp)
        · have hf := (validateQueryText_false_iff q).mpr (Or.inr (Or.inr h))
          rw [hq] at hf
          exact absurd hf (by simp)
        · have hf := (validateTopKValue_false_iff k).mpr (Or.inl h)
          rw [hk] at hf
          exact absurd hf (by simp)
        · have hf := (validateTopKValue_false_iff k).mpr (Or.inr h)
          rw [hk] at hf
          exact absurd hf (by simp)
    · rw [if_pos hk]
      constructor
      · intro _
        rcases (validateTopKValue_false_iff k).mp (Bool.eq_false_iff.mpr hk) with h | h
        · exact Or.inr (Or.inr (Or.inr (Or.inl h)))
        · exact Or.inr (Or.inr (Or.inr (Or.inr h)))
      · intro _
        exact ⟨_, rfl⟩
  · rw [if_pos hq]
    constructor
    · intro _
      rcases (validateQueryText_false_iff q).mp (Bool.eq_false_iff.mpr hq) with h | h | h
      · exact Or.inl h
      · exact Or.inr (Or.inl h)
      · exact Or.inr (Or.inr (Or.inl h))
    · intro _
      exact ⟨_, rfl⟩

end Spec2Proof
